import Mathlib

/-!
Verification of the work-distribution and progress-aggregation core of
`multi-tqdm` (`src/main.py`).

The Python source spawns `process_cnt` worker processes (`parallel`), each
running `_worker`: a loop that dequeues one item from the shared FIFO queue
`src` (`src.get(timeout=0.2)`, raising `Empty` when the queue is drained),
invokes the caller-supplied `work(index, item)`, then — under `lock` — takes
the current count out of the one-element queue `shared`, increments it,
writes `tqdm.format_meter(new_id, length, elapsed, col) + CR` to stderr, puts
the new count back, and releases the lock.

The shallow embedding below represents each worker by a program counter
(`WStatus`) whose atomic transitions are exactly the shared-state operations
of the loop body; an explicit schedule (a list of worker indices) resolves
the interleaving nondeterminism.  Ghost fields record the sequence of work
invocations (`calls`) and of progress renders (`renders`); wall-clock elapsed
time is external to the model, so a render event records the count, total and
column-width arguments passed to the opaque formatter.
-/

set_option autoImplicit false

namespace MultiTqdm

/-- Outcome of one invocation of the caller-supplied work function.
`raiseEmpty` is the corner case of the work function raising `queue.Empty`
itself (the exception type the loop's `except Empty:` clause catches);
`raiseOther` is any other exception. -/
inductive WorkOutcome
  | ok
  | raiseEmpty
  | raiseOther
deriving DecidableEq

/-- Program counter of one worker process inside the `_worker` loop body
(`src/main.py` lines 15-29).  `idle` is the top of the `while True` loop,
about to call `src.get(timeout=0.2)`; `toAcquire` has done the work call and
is about to call `lock.acquire()`; `toGet` holds the lock and is about to
call `shared.get()`; `toWrite new_id` has computed `new_id = shared.get() + 1`
and is about to write the formatted meter line; `toPut new_id` is about to
call `shared.put(new_id)`; `toRelease` is about to call `lock.release()`;
`done` has returned from the `except Empty:` handler; `failed` terminated
with a propagating exception from the work call. -/
inductive WStatus
  | idle
  | toAcquire
  | toGet
  | toWrite (newId : Nat)
  | toPut (newId : Nat)
  | toRelease
  | done
  | failed
deriving DecidableEq

/-- One progress render: the arguments `(new_id, length, col)` passed to the
opaque formatter `tqdm.format_meter` in `stderr.write(tqdm.format_meter(new_id,
length, time() - start, col) + CR)`; elapsed wall-clock time is external to
the model. -/
structure RenderEvent where
  count : Nat
  total : Nat
  width : Nat
deriving DecidableEq

/-- The shared state of a run of `parallel`: `src` is the work-item FIFO
queue, `shared` the one-element queue holding the progress count, `lockHolder`
the index of the worker currently holding `lock` (if any), `workers` the
program counters of the `process_cnt` spawned workers, `calls` the ghost trace
of work-function invocations `(index, item)`, and `renders` the ghost trace of
progress lines written to stderr. -/
structure SysState (α : Type) where
  src : List α
  shared : List Nat
  lockHolder : Option Nat
  workers : List WStatus
  calls : List (Nat × α)
  renders : List RenderEvent
deriving DecidableEq

variable {α : Type}

/-- One atomic transition of worker `i` running the `_worker` loop body:
dequeue-and-work (the `src.get` / `work` line, a single step because the work
function touches no shared state), `lock.acquire()` (enabled only when no
worker holds the lock), `shared.get()` plus the `+ 1` (enabled only when the
counter queue is non-empty), the `stderr.write` of the formatted line, the
`shared.put(new_id)`, and `lock.release()`.  A worker whose index is out of
range, or that is blocked or terminated, leaves the state unchanged. -/
def workerStep (work : Nat → α → WorkOutcome) (length col : Nat) (i : Nat)
    (s : SysState α) : SysState α :=
  match s.workers[i]? with
  | none => s
  | some WStatus.idle =>
    match s.src with
    | [] => { s with workers := s.workers.set i WStatus.done }
    | x :: rest =>
      match work i x with
      | WorkOutcome.ok =>
        { s with src := rest, workers := s.workers.set i WStatus.toAcquire,
                 calls := s.calls ++ [(i, x)] }
      | WorkOutcome.raiseEmpty =>
        { s with src := rest, workers := s.workers.set i WStatus.done,
                 calls := s.calls ++ [(i, x)] }
      | WorkOutcome.raiseOther =>
        { s with src := rest, workers := s.workers.set i WStatus.failed,
                 calls := s.calls ++ [(i, x)] }
  | some WStatus.toAcquire =>
    match s.lockHolder with
    | none => { s with lockHolder := some i, workers := s.workers.set i WStatus.toGet }
    | some _ => s
  | some WStatus.toGet =>
    match s.shared with
    | [] => s
    | c :: rest =>
      { s with shared := rest, workers := s.workers.set i (WStatus.toWrite (c + 1)) }
  | some (WStatus.toWrite newId) =>
    { s with renders := s.renders ++ [⟨newId, length, col⟩],
             workers := s.workers.set i (WStatus.toPut newId) }
  | some (WStatus.toPut newId) =>
    { s with shared := s.shared ++ [newId],
             workers := s.workers.set i WStatus.toRelease }
  | some WStatus.toRelease =>
    { s with lockHolder := none, workers := s.workers.set i WStatus.idle }
  | some WStatus.done => s
  | some WStatus.failed => s

/-- Run a schedule: at each step the named worker takes its next atomic
transition (or is skipped when blocked or finished). -/
def run (work : Nat → α → WorkOutcome) (length col : Nat) (sched : List Nat)
    (s : SysState α) : SysState α :=
  sched.foldl (fun t i => workerStep work length col i t) s

/-- The state set up by `parallel` before the workers start (`src/main.py`
lines 48-68): the FIFO `src` populated with `data` front to back, `shared`
holding the single value `0`, the lock free, `process_cnt` workers all at the
top of their loop, and the initial `format_meter(0, length, ..., col)` line
already written (line 65). -/
def initState (data : List α) (process_cnt col : Nat) : SysState α :=
  { src := data, shared := [0], lockHolder := none,
    workers := List.replicate process_cnt WStatus.idle,
    calls := [], renders := [⟨0, data.length, col⟩] }

/-- A complete invocation of `parallel work data process_cnt` under a given
interleaving schedule, with `col` the column width computed during setup. -/
def parallelRun (work : Nat → α → WorkOutcome) (data : List α)
    (process_cnt col : Nat) (sched : List Nat) : SysState α :=
  run work data.length col sched (initState data process_cnt col)

/-- The column-width computation of `parallel` (`src/main.py` lines 60-64):
`col = _screen_shape_wrapper()(stderr)[0] // 2`, with `col = 10` when the
screen shape is unavailable (the `except TypeError:` branch, which is what
both a `None` wrapper and a `None` shape produce). -/
def computeCol (screenShape : Option Nat) : Nat :=
  match screenShape with
  | some w => w / 2
  | none => 10

/-- All spawned workers have finished their loop normally (each `join` in
`parallel` returned after a clean `return` from `_worker`). -/
def allDone (s : SysState α) : Prop :=
  ∀ st ∈ s.workers, st = WStatus.done

instance (s : SysState α) : Decidable (allDone s) :=
  inferInstanceAs (Decidable (∀ st ∈ s.workers, st = WStatus.done))

/-- Worker statuses inside the lock-protected critical section. -/
def WStatus.inCS : WStatus → Bool
  | WStatus.toGet => true
  | WStatus.toWrite _ => true
  | WStatus.toPut _ => true
  | WStatus.toRelease => true
  | _ => false

/-- Worker statuses holding the counter value taken out of `shared` (between
`shared.get()` and `shared.put(new_id)`). -/
def WStatus.holdsVal : WStatus → Bool
  | WStatus.toWrite _ => true
  | WStatus.toPut _ => true
  | _ => false

/-- Number of counter increments this worker still owes for the item it has
dequeued but not yet recorded in `shared`. -/
def WStatus.pending : WStatus → Nat
  | WStatus.toAcquire => 1
  | WStatus.toGet => 1
  | WStatus.toWrite _ => 1
  | _ => 0

/-- The contribution of a worker's local register to the logical counter
value: between `shared.get()` and the write the old count `new_id - 1`,
between the write and `shared.put` the new count `new_id`. -/
def WStatus.regContrib : WStatus → Nat
  | WStatus.toWrite c => c - 1
  | WStatus.toPut c => c
  | _ => 0

/-- The logical value of the progress counter: the content of the `shared`
queue plus whatever a worker inside the critical section holds in its
register. -/
def counterVal (s : SysState α) : Nat :=
  s.shared.sum + (s.workers.map WStatus.regContrib).sum

/-- Updating one list entry exchanges its `f`-contribution in the mapped
sum. -/
theorem sum_map_set (f : WStatus → Nat) :
    ∀ (l : List WStatus) (i : Nat) (st a : WStatus), l[i]? = some st →
      ((l.set i a).map f).sum + f st = (l.map f).sum + f a := by
  intro l
  induction l with
  | nil => intro i st a h; simp at h
  | cons x xs ih =>
    intro i st a h
    cases i with
    | zero =>
      simp only [List.getElem?_cons_zero, Option.some.injEq] at h
      subst h
      simp only [List.set_cons_zero, List.map_cons, List.sum_cons]
      omega
    | succ j =>
      simp only [List.getElem?_cons_succ] at h
      have hih := ih j st a h
      simp only [List.set_cons_succ, List.map_cons, List.sum_cons]
      omega

/-- Updating one list entry exchanges its contribution to a `countP`. -/
theorem countP_set (p : WStatus → Bool) :
    ∀ (l : List WStatus) (i : Nat) (st a : WStatus), l[i]? = some st →
      (l.set i a).countP p + (p st).toNat = l.countP p + (p a).toNat := by
  intro l
  induction l with
  | nil => intro i st a h; simp at h
  | cons x xs ih =>
    intro i st a h
    cases i with
    | zero =>
      simp only [List.getElem?_cons_zero, Option.some.injEq] at h
      subst h
      simp only [List.set_cons_zero, List.countP_cons]
      cases p a <;> cases p x <;> simp
    | succ j =>
      simp only [List.getElem?_cons_succ] at h
      have hih := ih j st a h
      simp only [List.set_cons_succ, List.countP_cons]
      cases p x <;> simp <;> omega

/-- If no element satisfies `p` and `f` vanishes off `p`, the mapped sum is
zero. -/
theorem sum_map_eq_zero (f : WStatus → Nat) (p : WStatus → Bool)
    (hfp : ∀ x, p x = false → f x = 0) (l : List WStatus)
    (hc : l.countP p = 0) : (l.map f).sum = 0 := by
  apply List.sum_eq_zero
  intro y hy
  obtain ⟨x, hx, rfl⟩ := List.mem_map.1 hy
  exact hfp x (by
    have := List.countP_eq_zero.1 hc x hx
    simpa using this)

/-- If exactly one element satisfies `p`, it is the one at index `i`, and `f`
vanishes off `p`, the mapped sum is its `f`-value. -/
theorem sum_map_eq_single (f : WStatus → Nat) (p : WStatus → Bool)
    (hfp : ∀ x, p x = false → f x = 0) :
    ∀ (l : List WStatus) (i : Nat) (st : WStatus), l[i]? = some st →
      p st = true → l.countP p = 1 → (l.map f).sum = f st := by
  intro l
  induction l with
  | nil => intro i st h; simp at h
  | cons x xs ih =>
    intro i st h hp hc
    rw [List.countP_cons] at hc
    cases i with
    | zero =>
      simp only [List.getElem?_cons_zero, Option.some.injEq] at h
      subst h
      rw [hp, if_pos rfl] at hc
      have hxs : xs.countP p = 0 := by omega
      simp only [List.map_cons, List.sum_cons]
      rw [sum_map_eq_zero f p hfp xs hxs]
      omega
    | succ j =>
      simp only [List.getElem?_cons_succ] at h
      have hmem : st ∈ xs := List.getElem?_mem h
      have hpos : 0 < xs.countP p := List.countP_pos_iff.2 ⟨st, hmem, hp⟩
      have hpx : p x = false := by
        cases hpx : p x
        · rfl
        · rw [hpx, if_pos rfl] at hc
          omega
      rw [hpx, if_neg (by simp)] at hc
      have hxs : xs.countP p = 1 := by omega
      simp only [List.map_cons, List.sum_cons]
      rw [hfp x hpx, ih j st h hp hxs]
      omega

/-- `WStatus.regContrib` vanishes off `WStatus.holdsVal`. -/
theorem regContrib_vanishes :
    ∀ y : WStatus, WStatus.holdsVal y = false → WStatus.regContrib y = 0 := by
  intro y hy
  cases y <;> simp [WStatus.holdsVal, WStatus.regContrib] at hy ⊢

/-- The global invariant of every reachable state of a run of `parallel` with
work function `work`, input list `data`, `process_cnt` workers and column
width `col`: the worker list has the spawned length; the lock holder (and
only it) is inside the critical section; the `shared` queue plus the critical
section hold exactly one counter value; the logical counter plus the owed
increments equals the number of successful work calls; registers of workers
past `shared.get() + 1` are positive; the rendered counts so far are exactly
`0, 1, ..., counterVal`; every render used the run's `length` and `col`; the
processed items followed by the queued ones are exactly `data` in order; and
every recorded worker index is in range. -/
structure Inv (work : Nat → α → WorkOutcome) (data : List α)
    (process_cnt col : Nat) (s : SysState α) : Prop where
  wlen : s.workers.length = process_cnt
  holderInCS : ∀ i, s.lockHolder = some i →
    ∃ st, s.workers[i]? = some st ∧ st.inCS = true
  csHolder : ∀ j st, s.workers[j]? = some st → st.inCS = true →
    s.lockHolder = some j
  sharedOne : s.shared.length + s.workers.countP WStatus.holdsVal = 1
  counting : counterVal s + (s.workers.map WStatus.pending).sum
      = s.calls.countP (fun p => work p.1 p.2 == WorkOutcome.ok)
  regPos : ∀ st ∈ s.workers, ∀ c, st = WStatus.toWrite c → 1 ≤ c
  rendersEq : s.renders.map RenderEvent.count = List.range (counterVal s + 1)
  renderMeta : ∀ e ∈ s.renders, e.total = data.length ∧ e.width = col
  callsApp : s.calls.map Prod.snd ++ s.src = data
  callIdx : ∀ p ∈ s.calls, p.1 < process_cnt

/-- The state set up by the dispatcher satisfies the invariant. -/
theorem inv_init (work : Nat → α → WorkOutcome) (data : List α)
    (process_cnt col : Nat) :
    Inv work data process_cnt col (initState data process_cnt col) := by
  have hrep : ∀ st ∈ List.replicate process_cnt WStatus.idle,
      st = WStatus.idle := fun st hst => List.eq_of_mem_replicate hst
  have hcnt : (List.replicate process_cnt WStatus.idle).countP
      WStatus.holdsVal = 0 := by
    apply List.countP_eq_zero.2
    intro a ha
    rw [hrep a ha]
    simp [WStatus.holdsVal]
  have hsum : ∀ f : WStatus → Nat, f WStatus.idle = 0 →
      ((List.replicate process_cnt WStatus.idle).map f).sum = 0 := by
    intro f hf
    apply List.sum_eq_zero
    intro y hy
    obtain ⟨x, hx, rfl⟩ := List.mem_map.1 hy
    rw [hrep x hx, hf]
  refine ⟨?_, ?_, ?_, ?_, ?_, ?_, ?_, ?_, ?_, ?_⟩
  · simp [initState]
  · intro i h
    simp [initState] at h
  · intro j st hj hcs
    have hmem : st ∈ List.replicate process_cnt WStatus.idle := by
      simp only [initState] at hj
      exact List.getElem?_mem hj
    rw [hrep st hmem] at hcs
    simp [WStatus.inCS] at hcs
  · simp [initState, hcnt]
  · simp [initState, counterVal, WStatus.regContrib, WStatus.pending]
  · intro st hst c hc
    simp only [initState] at hst
    rw [hrep st hst] at hc
    cases hc
  · simp [initState, counterVal, WStatus.regContrib, List.range_succ]
  · intro e he
    simp only [initState] at he
    rw [List.mem_singleton] at he
    subst he
    simp
  · simp [initState]
  · intro p hp
    simp [initState] at hp

/-- One atomic worker transition preserves the global invariant. -/
theorem inv_step (work : Nat → α → WorkOutcome) (data : List α)
    (process_cnt col i : Nat) (s : SysState α)
    (hInv : Inv work data process_cnt col s) :
    Inv work data process_cnt col (workerStep work data.length col i s) := by
  obtain ⟨wlen, holderInCS, csHolder, sharedOne, counting, regPos,
    rendersEq, renderMeta, callsApp, callIdx⟩ := hInv
  simp only [counterVal] at counting rendersEq
  cases hw : s.workers[i]? with
  | none =>
    simp only [workerStep, hw]
    exact ⟨wlen, holderInCS, csHolder, sharedOne, by
      simp only [counterVal]; exact counting, regPos, by
      simp only [counterVal]; exact rendersEq, renderMeta, callsApp, callIdx⟩
  | some st =>
    have hilt : i < s.workers.length := by
      rcases Nat.lt_or_ge i s.workers.length with h | h
      · exact h
      · rw [List.getElem?_eq_none h] at hw
        cases hw
    cases st with
    | idle =>
      have hlockNe : s.lockHolder ≠ some i := by
        intro hl
        obtain ⟨st0, hst0, hcs0⟩ := holderInCS i hl
        rw [hw] at hst0
        obtain rfl : WStatus.idle = st0 := Option.some.inj hst0
        simp [WStatus.inCS] at hcs0
      cases hsrc : s.src with
      | nil =>
        simp only [workerStep, hw, hsrc]
        have hreg := sum_map_set WStatus.regContrib s.workers i _ WStatus.done hw
        have hpen := sum_map_set WStatus.pending s.workers i _ WStatus.done hw
        have hcnt := countP_set WStatus.holdsVal s.workers i _ WStatus.done hw
        simp only [WStatus.regContrib, WStatus.pending, WStatus.holdsVal,
          Bool.toNat_false, Nat.add_zero] at hreg hpen hcnt
        refine ⟨by simpa using wlen, ?_, ?_, ?_, ?_, ?_, ?_, renderMeta, ?_, callIdx⟩
        · dsimp only
          intro j hl
          obtain ⟨st0, hst0, hcs0⟩ := holderInCS j hl
          have hji : j ≠ i := by
            rintro rfl
            rw [hw] at hst0
            obtain rfl : WStatus.idle = st0 := Option.some.inj hst0
            simp [WStatus.inCS] at hcs0
          refine ⟨st0, ?_, hcs0⟩
          rw [List.getElem?_set_ne (by omega)]
          exact hst0
        · dsimp only
          intro j st1 hj hcs1
          by_cases hji : j = i
          · subst hji
            rw [List.getElem?_set_self hilt] at hj
            obtain rfl : WStatus.done = st1 := Option.some.inj hj
            simp [WStatus.inCS] at hcs1
          · rw [List.getElem?_set_ne (by omega)] at hj
            exact csHolder j st1 hj hcs1
        · dsimp only
          omega
        · simp only [counterVal]
          omega
        · dsimp only
          intro st1 hst1 c hc
          rcases List.mem_or_eq_of_mem_set hst1 with hmem | rfl
          · exact regPos st1 hmem c hc
          · cases hc
        · simp only [counterVal]
          convert rendersEq using 2
          omega
        · dsimp only
          rw [hsrc] at callsApp
          exact callsApp
      | cons x rest =>
        cases hout : work i x with
        | ok =>
          simp only [workerStep, hw, hsrc, hout]
          have hreg := sum_map_set WStatus.regContrib s.workers i _ WStatus.toAcquire hw
          have hpen := sum_map_set WStatus.pending s.workers i _ WStatus.toAcquire hw
          have hcnt := countP_set WStatus.holdsVal s.workers i _ WStatus.toAcquire hw
          simp only [WStatus.regContrib, WStatus.pending, WStatus.holdsVal,
            Bool.toNat_false, Nat.add_zero] at hreg hpen hcnt
          have hone : (([(i, x)] : List (Nat × α)).countP
              (fun p => work p.1 p.2 == WorkOutcome.ok)) = 1 := by
            simp [List.countP_cons, hout]
          refine ⟨by simpa using wlen, ?_, ?_, ?_, ?_, ?_, ?_, renderMeta, ?_, ?_⟩
          · dsimp only
            intro j hl
            obtain ⟨st0, hst0, hcs0⟩ := holderInCS j hl
            have hji : j ≠ i := by
              rintro rfl
              rw [hw] at hst0
              obtain rfl : WStatus.idle = st0 := Option.some.inj hst0
              simp [WStatus.inCS] at hcs0
            refine ⟨st0, ?_, hcs0⟩
            rw [List.getElem?_set_ne (by omega)]
            exact hst0
          · dsimp only
            intro j st1 hj hcs1
            by_cases hji : j = i
            · subst hji
              rw [List.getElem?_set_self hilt] at hj
              obtain rfl : WStatus.toAcquire = st1 := Option.some.inj hj
              simp [WStatus.inCS] at hcs1
            · rw [List.getElem?_set_ne (by omega)] at hj
              exact csHolder j st1 hj hcs1
          · dsimp only
            omega
          · simp only [counterVal, List.countP_append, hone]
            omega
          · dsimp only
            intro st1 hst1 c hc
            rcases List.mem_or_eq_of_mem_set hst1 with hmem | rfl
            · exact regPos st1 hmem c hc
            · cases hc
          · simp only [counterVal]
            convert rendersEq using 2
            omega
          · rw [hsrc] at callsApp
            simpa using callsApp
          · dsimp only
            intro p hp
            rcases List.mem_append.1 hp with hmem | hmem
            · exact callIdx p hmem
            · rw [List.mem_singleton] at hmem
              subst hmem
              rw [← wlen]
              exact hilt
        | raiseEmpty =>
          simp only [workerStep, hw, hsrc, hout]
          have hreg := sum_map_set WStatus.regContrib s.workers i _ WStatus.done hw
          have hpen := sum_map_set WStatus.pending s.workers i _ WStatus.done hw
          have hcnt := countP_set WStatus.holdsVal s.workers i _ WStatus.done hw
          simp only [WStatus.regContrib, WStatus.pending, WStatus.holdsVal,
            Bool.toNat_false, Nat.add_zero] at hreg hpen hcnt
          have hzero : (([(i, x)] : List (Nat × α)).countP
              (fun p => work p.1 p.2 == WorkOutcome.ok)) = 0 := by
            simp [List.countP_cons, hout]
          refine ⟨by simpa using wlen, ?_, ?_, ?_, ?_, ?_, ?_, renderMeta, ?_, ?_⟩
          · dsimp only
            intro j hl
            obtain ⟨st0, hst0, hcs0⟩ := holderInCS j hl
            have hji : j ≠ i := by
              rintro rfl
              rw [hw] at hst0
              obtain rfl : WStatus.idle = st0 := Option.some.inj hst0
              simp [WStatus.inCS] at hcs0
            refine ⟨st0, ?_, hcs0⟩
            rw [List.getElem?_set_ne (by omega)]
            exact hst0
          · dsimp only
            intro j st1 hj hcs1
            by_cases hji : j = i
            · subst hji
              rw [List.getElem?_set_self hilt] at hj
              obtain rfl : WStatus.done = st1 := Option.some.inj hj
              simp [WStatus.inCS] at hcs1
            · rw [List.getElem?_set_ne (by omega)] at hj
              exact csHolder j st1 hj hcs1
          · dsimp only
            omega
          · simp only [counterVal, List.countP_append, hzero]
            omega
          · dsimp only
            intro st1 hst1 c hc
            rcases List.mem_or_eq_of_mem_set hst1 with hmem | rfl
            · exact regPos st1 hmem c hc
            · cases hc
          · simp only [counterVal]
            convert rendersEq using 2
            omega
          · rw [hsrc] at callsApp
            simpa using callsApp
          · dsimp only
            intro p hp
            rcases List.mem_append.1 hp with hmem | hmem
            · exact callIdx p hmem
            · rw [List.mem_singleton] at hmem
              subst hmem
              rw [← wlen]
              exact hilt
        | raiseOther =>
          simp only [workerStep, hw, hsrc, hout]
          have hreg := sum_map_set WStatus.regContrib s.workers i _ WStatus.failed hw
          have hpen := sum_map_set WStatus.pending s.workers i _ WStatus.failed hw
          have hcnt := countP_set WStatus.holdsVal s.workers i _ WStatus.failed hw
          simp only [WStatus.regContrib, WStatus.pending, WStatus.holdsVal,
            Bool.toNat_false, Nat.add_zero] at hreg hpen hcnt
          have hzero : (([(i, x)] : List (Nat × α)).countP
              (fun p => work p.1 p.2 == WorkOutcome.ok)) = 0 := by
            simp [List.countP_cons, hout]
          refine ⟨by simpa using wlen, ?_, ?_, ?_, ?_, ?_, ?_, renderMeta, ?_, ?_⟩
          · dsimp only
            intro j hl
            obtain ⟨st0, hst0, hcs0⟩ := holderInCS j hl
            have hji : j ≠ i := by
              rintro rfl
              rw [hw] at hst0
              obtain rfl : WStatus.idle = st0 := Option.some.inj hst0
              simp [WStatus.inCS] at hcs0
            refine ⟨st0, ?_, hcs0⟩
            rw [List.getElem?_set_ne (by omega)]
            exact hst0
          · dsimp only
            intro j st1 hj hcs1
            by_cases hji : j = i
            · subst hji
              rw [List.getElem?_set_self hilt] at hj
              obtain rfl : WStatus.failed = st1 := Option.some.inj hj
              simp [WStatus.inCS] at hcs1
            · rw [List.getElem?_set_ne (by omega)] at hj
              exact csHolder j st1 hj hcs1
          · dsimp only
            omega
          · simp only [counterVal, List.countP_append, hzero]
            omega
          · dsimp only
            intro st1 hst1 c hc
            rcases List.mem_or_eq_of_mem_set hst1 with hmem | rfl
            · exact regPos st1 hmem c hc
            · cases hc
          · simp only [counterVal]
            convert rendersEq using 2
            omega
          · rw [hsrc] at callsApp
            simpa using callsApp
          · dsimp only
            intro p hp
            rcases List.mem_append.1 hp with hmem | hmem
            · exact callIdx p hmem
            · rw [List.mem_singleton] at hmem
              subst hmem
              rw [← wlen]
              exact hilt
    | toAcquire =>
      cases hlock : s.lockHolder with
      | some j =>
        simp only [workerStep, hw, hlock]
        exact ⟨wlen, holderInCS, csHolder, sharedOne, by
          simp only [counterVal]; exact counting, regPos, by
          simp only [counterVal]; exact rendersEq, renderMeta, callsApp, callIdx⟩
      | none =>
        simp only [workerStep, hw, hlock]
        have hreg := sum_map_set WStatus.regContrib s.workers i _ WStatus.toGet hw
        have hpen := sum_map_set WStatus.pending s.workers i _ WStatus.toGet hw
        have hcnt := countP_set WStatus.holdsVal s.workers i _ WStatus.toGet hw
        simp only [WStatus.regContrib, WStatus.pending, WStatus.holdsVal,
          Bool.toNat_false, Nat.add_zero] at hreg hpen hcnt
        refine ⟨by simpa using wlen, ?_, ?_, ?_, ?_, ?_, ?_, renderMeta, callsApp, callIdx⟩
        · dsimp only
          intro j hl
          obtain rfl : i = j := Option.some.inj hl
          exact ⟨WStatus.toGet, List.getElem?_set_self hilt, by simp [WStatus.inCS]⟩
        · dsimp only
          intro j st1 hj hcs1
          by_cases hji : j = i
          · subst hji
            rfl
          · rw [List.getElem?_set_ne (by omega)] at hj
            have := csHolder j st1 hj hcs1
            rw [hlock] at this
            cases this
        · dsimp only
          omega
        · simp only [counterVal]
          omega
        · dsimp only
          intro st1 hst1 c hc
          rcases List.mem_or_eq_of_mem_set hst1 with hmem | rfl
          · exact regPos st1 hmem c hc
          · cases hc
        · simp only [counterVal]
          convert rendersEq using 2
          omega
    | toGet =>
      have hlockEq : s.lockHolder = some i :=
        csHolder i WStatus.toGet hw (by simp [WStatus.inCS])
      cases hshared : s.shared with
      | nil =>
        simp only [workerStep, hw, hshared]
        exact ⟨wlen, holderInCS, csHolder, sharedOne, by
          simp only [counterVal]; exact counting, regPos, by
          simp only [counterVal]; exact rendersEq, renderMeta, callsApp, callIdx⟩
      | cons c rest =>
        have hcnt0 : s.workers.countP WStatus.holdsVal = 0 ∧ rest = [] := by
          rw [hshared] at sharedOne
          simp only [List.length_cons] at sharedOne
          exact ⟨by omega, List.length_eq_zero.1 (by omega)⟩
        obtain ⟨hcntz, rfl⟩ := hcnt0
        simp only [workerStep, hw, hshared]
        have hreg := sum_map_set WStatus.regContrib s.workers i _ (WStatus.toWrite (c + 1)) hw
        have hpen := sum_map_set WStatus.pending s.workers i _ (WStatus.toWrite (c + 1)) hw
        have hcnt := countP_set WStatus.holdsVal s.workers i _ (WStatus.toWrite (c + 1)) hw
        simp only [WStatus.regContrib, WStatus.pending, WStatus.holdsVal,
          Bool.toNat_false, Bool.toNat_true, Nat.add_zero] at hreg hpen hcnt
        rw [hshared] at counting rendersEq
        simp only [List.sum_cons, List.sum_nil] at counting rendersEq
        refine ⟨by simpa using wlen, ?_, ?_, ?_, ?_, ?_, ?_, renderMeta, callsApp, callIdx⟩
        · dsimp only
          intro j hl
          rw [hlockEq] at hl
          obtain rfl : i = j := Option.some.inj hl
          exact ⟨WStatus.toWrite (c + 1), List.getElem?_set_self hilt,
            by simp [WStatus.inCS]⟩
        · dsimp only
          intro j st1 hj hcs1
          by_cases hji : j = i
          · subst hji
            exact hlockEq
          · rw [List.getElem?_set_ne (by omega)] at hj
            exact csHolder j st1 hj hcs1
        · dsimp only
          simp only [List.length_nil]
          omega
        · simp only [counterVal, List.sum_nil]
          omega
        · dsimp only
          intro st1 hst1 c1 hc1
          rcases List.mem_or_eq_of_mem_set hst1 with hmem | rfl
          · exact regPos st1 hmem c1 hc1
          · injection hc1 with hinj
            omega
        · simp only [counterVal, List.sum_nil]
          convert rendersEq using 2
          omega
    | toWrite c =>
      have hlockEq : s.lockHolder = some i :=
        csHolder i (WStatus.toWrite c) hw (by simp [WStatus.inCS])
      have hc1 : 1 ≤ c := regPos (WStatus.toWrite c) (List.getElem?_mem hw) c rfl
      have hcntOne : s.workers.countP WStatus.holdsVal = 1 ∧ s.shared = [] := by
        have hpos : 0 < s.workers.countP WStatus.holdsVal :=
          List.countP_pos_iff.2 ⟨WStatus.toWrite c, List.getElem?_mem hw,
            by simp [WStatus.holdsVal]⟩
        exact ⟨by omega, List.length_eq_zero.1 (by omega)⟩
      obtain ⟨hcnt1, hsh⟩ := hcntOne
      have hS : (s.workers.map WStatus.regContrib).sum = c - 1 :=
        sum_map_eq_single WStatus.regContrib WStatus.holdsVal regContrib_vanishes
          s.workers i (WStatus.toWrite c) hw (by simp [WStatus.holdsVal]) hcnt1
      simp only [workerStep, hw]
      have hreg := sum_map_set WStatus.regContrib s.workers i _ (WStatus.toPut c) hw
      have hpen := sum_map_set WStatus.pending s.workers i _ (WStatus.toPut c) hw
      have hcnt := countP_set WStatus.holdsVal s.workers i _ (WStatus.toPut c) hw
      simp only [WStatus.regContrib, WStatus.pending, WStatus.holdsVal,
        Bool.toNat_false, Bool.toNat_true, Nat.add_zero] at hreg hpen hcnt
      rw [hsh] at counting rendersEq
      simp only [List.sum_nil] at counting rendersEq
      refine ⟨by simpa using wlen, ?_, ?_, ?_, ?_, ?_, ?_, ?_, callsApp, callIdx⟩
      · dsimp only
        intro j hl
        rw [hlockEq] at hl
        obtain rfl : i = j := Option.some.inj hl
        exact ⟨WStatus.toPut c, List.getElem?_set_self hilt, by simp [WStatus.inCS]⟩
      · dsimp only
        intro j st1 hj hcs1
        by_cases hji : j = i
        · subst hji
          exact hlockEq
        · rw [List.getElem?_set_ne (by omega)] at hj
          exact csHolder j st1 hj hcs1
      · dsimp only
        rw [hsh]
        simp only [List.length_nil]
        omega
      · simp only [counterVal]
        rw [hsh]
        simp only [List.sum_nil]
        omega
      · dsimp only
        intro st1 hst1 c1 hc1
        rcases List.mem_or_eq_of_mem_set hst1 with hmem | rfl
        · exact regPos st1 hmem c1 hc1
        · cases hc1
      · have hmap : s.renders.map RenderEvent.count = List.range c := by
          rw [rendersEq]
          congr 1
          omega
        simp only [counterVal, List.map_append, hmap]
        rw [hsh]
        simp only [List.sum_nil, List.map_cons, List.map_nil]
        have harg : 0 + ((s.workers.set i (WStatus.toPut c)).map
            WStatus.regContrib).sum + 1 = c + 1 := by omega
        rw [harg, List.range_succ]
      · dsimp only
        intro e he
        rcases List.mem_append.1 he with hmem | hmem
        · exact renderMeta e hmem
        · rw [List.mem_singleton] at hmem
          subst hmem
          simp
    | toPut c =>
      have hlockEq : s.lockHolder = some i :=
        csHolder i (WStatus.toPut c) hw (by simp [WStatus.inCS])
      have hcntOne : s.workers.countP WStatus.holdsVal = 1 ∧ s.shared = [] := by
        have hpos : 0 < s.workers.countP WStatus.holdsVal :=
          List.countP_pos_iff.2 ⟨WStatus.toPut c, List.getElem?_mem hw,
            by simp [WStatus.holdsVal]⟩
        exact ⟨by omega, List.length_eq_zero.1 (by omega)⟩
      obtain ⟨hcnt1, hsh⟩ := hcntOne
      have hS : (s.workers.map WStatus.regContrib).sum = c :=
        sum_map_eq_single WStatus.regContrib WStatus.holdsVal regContrib_vanishes
          s.workers i (WStatus.toPut c) hw (by simp [WStatus.holdsVal]) hcnt1
      simp only [workerStep, hw]
      have hreg := sum_map_set WStatus.regContrib s.workers i _ WStatus.toRelease hw
      have hpen := sum_map_set WStatus.pending s.workers i _ WStatus.toRelease hw
      have hcnt := countP_set WStatus.holdsVal s.workers i _ WStatus.toRelease hw
      simp only [WStatus.regContrib, WStatus.pending, WStatus.holdsVal,
        Bool.toNat_false, Bool.toNat_true, Nat.add_zero] at hreg hpen hcnt
      rw [hsh] at counting rendersEq
      simp only [List.sum_nil] at counting rendersEq
      refine ⟨by simpa using wlen, ?_, ?_, ?_, ?_, ?_, ?_, renderMeta, callsApp, callIdx⟩
      · dsimp only
        intro j hl
        rw [hlockEq] at hl
        obtain rfl : i = j := Option.some.inj hl
        exact ⟨WStatus.toRelease, List.getElem?_set_self hilt, by simp [WStatus.inCS]⟩
      · dsimp only
        intro j st1 hj hcs1
        by_cases hji : j = i
        · subst hji
          exact hlockEq
        · rw [List.getElem?_set_ne (by omega)] at hj
          exact csHolder j st1 hj hcs1
      · dsimp only
        rw [hsh]
        simp only [List.nil_append, List.length_cons, List.length_nil]
        omega
      · simp only [counterVal]
        rw [hsh]
        simp only [List.nil_append, List.sum_cons, List.sum_nil]
        omega
      · dsimp only
        intro st1 hst1 c1 hc1
        rcases List.mem_or_eq_of_mem_set hst1 with hmem | rfl
        · exact regPos st1 hmem c1 hc1
        · cases hc1
      · simp only [counterVal]
        rw [hsh]
        simp only [List.nil_append, List.sum_cons, List.sum_nil]
        convert rendersEq using 2
        omega
    | toRelease =>
      have hlockEq : s.lockHolder = some i :=
        csHolder i WStatus.toRelease hw (by simp [WStatus.inCS])
      simp only [workerStep, hw]
      have hreg := sum_map_set WStatus.regContrib s.workers i _ WStatus.idle hw
      have hpen := sum_map_set WStatus.pending s.workers i _ WStatus.idle hw
      have hcnt := countP_set WStatus.holdsVal s.workers i _ WStatus.idle hw
      simp only [WStatus.regContrib, WStatus.pending, WStatus.holdsVal,
        Bool.toNat_false, Nat.add_zero] at hreg hpen hcnt
      refine ⟨by simpa using wlen, ?_, ?_, ?_, ?_, ?_, ?_, renderMeta, callsApp, callIdx⟩
      · dsimp only
        intro j hl
        cases hl
      · dsimp only
        intro j st1 hj hcs1
        by_cases hji : j = i
        · subst hji
          rw [List.getElem?_set_self hilt] at hj
          obtain rfl : WStatus.idle = st1 := Option.some.inj hj
          simp [WStatus.inCS] at hcs1
        · rw [List.getElem?_set_ne (by omega)] at hj
          have := csHolder j st1 hj hcs1
          rw [hlockEq] at this
          obtain rfl : i = j := Option.some.inj this
          exact absurd rfl hji
      · dsimp only
        omega
      · simp only [counterVal]
        omega
      · dsimp only
        intro st1 hst1 c1 hc1
        rcases List.mem_or_eq_of_mem_set hst1 with hmem | rfl
        · exact regPos st1 hmem c1 hc1
        · cases hc1
      · simp only [counterVal]
        convert rendersEq using 2
        omega
    | done =>
      simp only [workerStep, hw]
      exact ⟨wlen, holderInCS, csHolder, sharedOne, by
        simp only [counterVal]; exact counting, regPos, by
        simp only [counterVal]; exact rendersEq, renderMeta, callsApp, callIdx⟩
    | failed =>
      simp only [workerStep, hw]
      exact ⟨wlen, holderInCS, csHolder, sharedOne, by
        simp only [counterVal]; exact counting, regPos, by
        simp only [counterVal]; exact rendersEq, renderMeta, callsApp, callIdx⟩

/-- The invariant is preserved by any schedule. -/
theorem inv_run (work : Nat → α → WorkOutcome) (data : List α)
    (process_cnt col : Nat) (sched : List Nat) (s : SysState α)
    (hInv : Inv work data process_cnt col s) :
    Inv work data process_cnt col (run work data.length col sched s) := by
  induction sched generalizing s with
  | nil => exact hInv
  | cons i rest ih =>
    exact ih (workerStep work data.length col i s)
      (inv_step work data process_cnt col i s hInv)

/-- Every state of a run of `parallel` satisfies the invariant. -/
theorem inv_parallelRun (work : Nat → α → WorkOutcome) (data : List α)
    (process_cnt col : Nat) (sched : List Nat) :
    Inv work data process_cnt col (parallelRun work data process_cnt col sched) :=
  inv_run work data process_cnt col sched (initState data process_cnt col)
    (inv_init work data process_cnt col)

/-- A worker can only have finished when the source queue is drained (on the
success path, where the work function never raises). -/
def DoneEmpty (s : SysState α) : Prop :=
  WStatus.done ∈ s.workers → s.src = []

/-- `DoneEmpty` is preserved by one transition when the work function always
succeeds: a worker only turns `done` after observing `src = []`, and `src`
never grows. -/
theorem doneEmpty_step (work : Nat → α → WorkOutcome)
    (hok : ∀ j x, work j x = WorkOutcome.ok) (length col i : Nat)
    (s : SysState α) (hDE : DoneEmpty s) :
    DoneEmpty (workerStep work length col i s) := by
  cases hw : s.workers[i]? with
  | none => simpa [workerStep, hw] using hDE
  | some st =>
    cases st with
    | idle =>
      cases hsrc : s.src with
      | nil =>
        simp only [workerStep, hw, hsrc]
        intro hmem
        rfl
      | cons x rest =>
        cases hout : work i x with
        | ok =>
          simp only [workerStep, hw, hsrc, hout]
          intro hmem
          rcases List.mem_or_eq_of_mem_set hmem with hmem2 | heq
          · have h2 := hDE hmem2
            rw [hsrc] at h2
            cases h2
          · cases heq
        | raiseEmpty =>
          have h2 := hok i x
          rw [hout] at h2
          cases h2
        | raiseOther =>
          have h2 := hok i x
          rw [hout] at h2
          cases h2
    | toAcquire =>
      cases hlock : s.lockHolder with
      | none =>
        simp only [workerStep, hw, hlock]
        intro hmem
        rcases List.mem_or_eq_of_mem_set hmem with hmem2 | heq
        · exact hDE hmem2
        · cases heq
      | some j => simpa [workerStep, hw, hlock] using hDE
    | toGet =>
      cases hshared : s.shared with
      | nil => simpa [workerStep, hw, hshared] using hDE
      | cons c rest =>
        simp only [workerStep, hw, hshared]
        intro hmem
        rcases List.mem_or_eq_of_mem_set hmem with hmem2 | heq
        · exact hDE hmem2
        · cases heq
    | toWrite c =>
      simp only [workerStep, hw]
      intro hmem
      rcases List.mem_or_eq_of_mem_set hmem with hmem2 | heq
      · exact hDE hmem2
      · cases heq
    | toPut c =>
      simp only [workerStep, hw]
      intro hmem
      rcases List.mem_or_eq_of_mem_set hmem with hmem2 | heq
      · exact hDE hmem2
      · cases heq
    | toRelease =>
      simp only [workerStep, hw]
      intro hmem
      rcases List.mem_or_eq_of_mem_set hmem with hmem2 | heq
      · exact hDE hmem2
      · cases heq
    | done => simpa [workerStep, hw] using hDE
    | failed => simpa [workerStep, hw] using hDE

/-- `DoneEmpty` holds along any schedule of a never-failing run. -/
theorem doneEmpty_run (work : Nat → α → WorkOutcome)
    (hok : ∀ j x, work j x = WorkOutcome.ok) (length col : Nat)
    (sched : List Nat) (s : SysState α) (hDE : DoneEmpty s) :
    DoneEmpty (run work length col sched s) := by
  induction sched generalizing s with
  | nil => exact hDE
  | cons i rest ih =>
    exact ih (workerStep work length col i s)
      (doneEmpty_step work hok length col i s hDE)

/-- `DoneEmpty` holds initially: no worker starts finished. -/
theorem doneEmpty_init (data : List α) (process_cnt col : Nat) :
    DoneEmpty (initState data process_cnt col) := by
  intro hmem
  simp only [initState] at hmem
  have h2 := List.eq_of_mem_replicate hmem
  cases h2

/-- In a finished successful run the invariant pins down the counter queue,
the call trace and the render trace. -/
theorem final_state_facts (work : Nat → α → WorkOutcome) (data : List α)
    (process_cnt col : Nat) (s : SysState α)
    (hInv : Inv work data process_cnt col s) (hDE : DoneEmpty s)
    (hok : ∀ j x, work j x = WorkOutcome.ok) (hk : 1 ≤ process_cnt)
    (hdone : allDone s) :
    s.shared = [data.length] ∧ s.calls.map Prod.snd = data ∧
      s.renders.map RenderEvent.count = List.range (data.length + 1) := by
  obtain ⟨wlen, holderInCS, csHolder, sharedOne, counting, regPos,
    rendersEq, renderMeta, callsApp, callIdx⟩ := hInv
  have hne : s.workers ≠ [] := by
    intro h
    rw [h] at wlen
    simp at wlen
    omega
  obtain ⟨w0, hw0⟩ := List.exists_mem_of_ne_nil s.workers hne
  have hsrc : s.src = [] := hDE (hdone w0 hw0 ▸ hw0)
  have hcnt0 : s.workers.countP WStatus.holdsVal = 0 :=
    List.countP_eq_zero.2 (fun a ha => by
      rw [hdone a ha]
      simp [WStatus.holdsVal])
  obtain ⟨v, hv⟩ : ∃ v, s.shared = [v] :=
    List.length_eq_one.1 (by omega)
  have hzero : ∀ f : WStatus → Nat, f WStatus.done = 0 →
      (s.workers.map f).sum = 0 := by
    intro f hf
    apply List.sum_eq_zero
    intro y hy
    obtain ⟨a, ha, rfl⟩ := List.mem_map.1 hy
    rw [hdone a ha, hf]
  have hpen0 := hzero WStatus.pending rfl
  have hreg0 := hzero WStatus.regContrib rfl
  have hcalls : s.calls.map Prod.snd = data := by
    rw [hsrc] at callsApp
    simpa using callsApp
  have hclen : s.calls.length = data.length := by
    rw [← hcalls, List.length_map]
  have hcp : s.calls.countP (fun p => work p.1 p.2 == WorkOutcome.ok)
      = s.calls.length :=
    List.countP_eq_length.2 (fun a ha => by simp [hok a.1 a.2])
  have hcv : s.shared.sum = data.length := by
    simp only [counterVal] at counting
    omega
  have hveq : v = data.length := by
    rw [hv] at hcv
    simpa using hcv
  refine ⟨by rw [hv, hveq], hcalls, ?_⟩
  rw [rendersEq]
  congr 1
  simp only [counterVal]
  omega

/-- Membership in a list yields an index with `getElem?`. -/
theorem mem_getElem_opt {β : Type} (l : List β) (a : β) (h : a ∈ l) :
    ∃ i : Nat, l[i]? = some a := by
  obtain ⟨i, hi, he⟩ := List.mem_iff_getElem.1 h
  exact ⟨i, by rw [List.getElem?_eq_some_iff]; exact ⟨hi, he⟩⟩

/-- C1: in a run of `parallel` on `n` items with at least one worker in which
every work invocation succeeds and all workers have finished, the shared
progress counter queue ends holding exactly the single value `n`. -/
theorem final_counter_eq_length (work : Nat → α → WorkOutcome) (data : List α)
    (process_cnt col : Nat) (sched : List Nat)
    (hok : ∀ j x, work j x = WorkOutcome.ok) (hk : 1 ≤ process_cnt)
    (hdone : allDone (parallelRun work data process_cnt col sched)) :
    (parallelRun work data process_cnt col sched).shared = [data.length] :=
  (final_state_facts work data process_cnt col
    (parallelRun work data process_cnt col sched)
    (inv_parallelRun work data process_cnt col sched)
    (doneEmpty_run work hok data.length col sched
      (initState data process_cnt col) (doneEmpty_init data process_cnt col))
    hok hk hdone).1

/-- Witness for C1: two items, two workers, a concrete completing schedule;
the counter ends at 2. -/
theorem final_counter_eq_length_witness :
    allDone (parallelRun (fun _ _ => WorkOutcome.ok) [(5 : Nat), 7] 2 4
      [0, 0, 0, 0, 0, 0, 0, 0, 0, 0, 0, 0, 0, 1]) ∧
    (parallelRun (fun _ _ => WorkOutcome.ok) [(5 : Nat), 7] 2 4
      [0, 0, 0, 0, 0, 0, 0, 0, 0, 0, 0, 0, 0, 1]).shared = [2] :=
  ⟨by decide, final_counter_eq_length (fun _ _ => WorkOutcome.ok) [(5 : Nat), 7]
    2 4 [0, 0, 0, 0, 0, 0, 0, 0, 0, 0, 0, 0, 0, 1]
    (fun _ _ => rfl) (by decide) (by decide)⟩

/-- C2: in a finished successful run, the sequence of items passed to the
work function (over all workers combined) is exactly the input list: every
enqueued item is processed exactly once, never zero and never two or more
times. -/
theorem each_item_processed_once (work : Nat → α → WorkOutcome) (data : List α)
    (process_cnt col : Nat) (sched : List Nat)
    (hok : ∀ j x, work j x = WorkOutcome.ok) (hk : 1 ≤ process_cnt)
    (hdone : allDone (parallelRun work data process_cnt col sched)) :
    (parallelRun work data process_cnt col sched).calls.map Prod.snd = data ∧
    (parallelRun work data process_cnt col sched).calls.length = data.length := by
  have hsnd := (final_state_facts work data process_cnt col
    (parallelRun work data process_cnt col sched)
    (inv_parallelRun work data process_cnt col sched)
    (doneEmpty_run work hok data.length col sched
      (initState data process_cnt col) (doneEmpty_init data process_cnt col))
    hok hk hdone).2.1
  refine ⟨hsnd, ?_⟩
  calc (parallelRun work data process_cnt col sched).calls.length
      = ((parallelRun work data process_cnt col sched).calls.map Prod.snd).length :=
        (List.length_map _ _).symm
    _ = data.length := by rw [hsnd]

/-- Witness for C2: the two items of the concrete run are each processed
exactly once. -/
theorem each_item_processed_once_witness :
    (parallelRun (fun _ _ => WorkOutcome.ok) [(5 : Nat), 7] 2 4
      [0, 0, 0, 0, 0, 0, 0, 0, 0, 0, 0, 0, 0, 1]).calls.map Prod.snd = [5, 7] ∧
    (parallelRun (fun _ _ => WorkOutcome.ok) [(5 : Nat), 7] 2 4
      [0, 0, 0, 0, 0, 0, 0, 0, 0, 0, 0, 0, 0, 1]).calls.length = 2 :=
  each_item_processed_once (fun _ _ => WorkOutcome.ok) [(5 : Nat), 7] 2 4
    [0, 0, 0, 0, 0, 0, 0, 0, 0, 0, 0, 0, 0, 1]
    (fun _ _ => rfl) (by decide) (by decide)

/-- C6: in a finished successful run on `n` items the sequence of counts
passed to the rendering function is exactly `0, 1, ..., n`: the initial `0`
render followed by one render per completed item, each incrementing the
previous count by one and ending at `n`; in particular there are exactly `n`
per-item render calls, one per item and not one per worker. -/
theorem render_counts_monotone (work : Nat → α → WorkOutcome) (data : List α)
    (process_cnt col : Nat) (sched : List Nat)
    (hok : ∀ j x, work j x = WorkOutcome.ok) (hk : 1 ≤ process_cnt)
    (hdone : allDone (parallelRun work data process_cnt col sched)) :
    (parallelRun work data process_cnt col sched).renders.map RenderEvent.count
      = List.range (data.length + 1) :=
  (final_state_facts work data process_cnt col
    (parallelRun work data process_cnt col sched)
    (inv_parallelRun work data process_cnt col sched)
    (doneEmpty_run work hok data.length col sched
      (initState data process_cnt col) (doneEmpty_init data process_cnt col))
    hok hk hdone).2.2

/-- Witness for C6: the concrete two-item run renders the counts 0, 1, 2. -/
theorem render_counts_monotone_witness :
    (parallelRun (fun _ _ => WorkOutcome.ok) [(5 : Nat), 7] 2 4
      [0, 0, 0, 0, 0, 0, 0, 0, 0, 0, 0, 0, 0, 1]).renders.map RenderEvent.count
      = [0, 1, 2] :=
  render_counts_monotone (fun _ _ => WorkOutcome.ok) [(5 : Nat), 7] 2 4
    [0, 0, 0, 0, 0, 0, 0, 0, 0, 0, 0, 0, 0, 1]
    (fun _ _ => rfl) (by decide) (by decide)

/-- The refinement target of C9, written from the specification reading: a
sequential left-to-right loop over the items, invoking the work function on
each item in list order with the single worker index 0. -/
def seqLoopCalls (data : List α) : List (Nat × α) :=
  data.map (fun x => (0, x))

/-- A call trace whose indices are all 0 is determined by its item column. -/
theorem calls_eq_seq (l : List (Nat × α)) :
    (∀ p ∈ l, p.1 = 0) → l = seqLoopCalls (l.map Prod.snd) := by
  induction l with
  | nil => intro h; rfl
  | cons p ps ih =>
    intro h
    have h0 : p.1 = 0 := h p (List.mem_cons_self p ps)
    have hps := ih (fun q hq => h q (List.mem_cons_of_mem p hq))
    simp only [seqLoopCalls, List.map_cons] at hps ⊢
    rw [← hps]
    congr 1
    exact Prod.ext h0 rfl

/-- C9: with `process_cnt = 1`, a finished successful run invokes the work
function on the items in exactly the order of the input list, always with
worker index 0 — the run is equivalent to the sequential left-to-right loop
`seqLoopCalls`. -/
theorem single_worker_sequential (work : Nat → α → WorkOutcome) (data : List α)
    (col : Nat) (sched : List Nat)
    (hok : ∀ j x, work j x = WorkOutcome.ok)
    (hdone : allDone (parallelRun work data 1 col sched)) :
    (parallelRun work data 1 col sched).calls = seqLoopCalls data := by
  have hsnd := (final_state_facts work data 1 col
    (parallelRun work data 1 col sched)
    (inv_parallelRun work data 1 col sched)
    (doneEmpty_run work hok data.length col sched
      (initState data 1 col) (doneEmpty_init data 1 col))
    hok (by omega) hdone).2.1
  have hfst : ∀ p ∈ (parallelRun work data 1 col sched).calls, p.1 = 0 := by
    intro p hp
    have := (inv_parallelRun work data 1 col sched).callIdx p hp
    omega
  have hseq := calls_eq_seq (parallelRun work data 1 col sched).calls hfst
  rw [hsnd] at hseq
  exact hseq

/-- Witness for C9: a single-worker run on two items produces the sequential
call trace. -/
theorem single_worker_sequential_witness :
    (parallelRun (fun _ _ => WorkOutcome.ok) [(5 : Nat), 7] 1 4
      [0, 0, 0, 0, 0, 0, 0, 0, 0, 0, 0, 0, 0]).calls = seqLoopCalls [(5 : Nat), 7] :=
  single_worker_sequential (fun _ _ => WorkOutcome.ok) [(5 : Nat), 7] 4
    [0, 0, 0, 0, 0, 0, 0, 0, 0, 0, 0, 0, 0]
    (fun _ _ => rfl) (by decide)

/-- When the lock is free, no worker holds the counter value, so the counter
queue holds exactly one value. -/
theorem shared_single_of_free (work : Nat → α → WorkOutcome) (data : List α)
    (process_cnt col : Nat) (s : SysState α)
    (hInv : Inv work data process_cnt col s) (hfree : s.lockHolder = none) :
    ∃ v, s.shared = [v] := by
  have hhv : s.workers.countP WStatus.holdsVal = 0 := by
    apply List.countP_eq_zero.2
    intro a ha hv
    obtain ⟨j, hj⟩ := mem_getElem_opt s.workers a ha
    have hcs : a.inCS = true := by
      cases a <;> simp [WStatus.holdsVal, WStatus.inCS] at hv ⊢
    have hl := hInv.csHolder j a hj hcs
    rw [hfree] at hl
    cases hl
  have hone := hInv.sharedOne
  exact List.length_eq_one.1 (by omega)

/-- C5: the progress update of `_worker` (lines 20-25) is one atomic unit.
First conjunct: mutual exclusion — in any reachable state at most one worker
is inside the lock-protected critical section, so render lines are never
interleaved.  Second conjunct: from a reachable state in which worker `i` has
finished its work call and the lock is free, the five consecutive transitions
of worker `i` perform exactly: acquire the gate, take the current count `v`
out of the `shared` queue, increment it to `v + 1`, write the progress line
formatted from `(v + 1, length, col)` (followed by the carriage return) to
the status stream, store `v + 1` back into `shared`, and release the gate —
leaving every other component of the state unchanged. -/
theorem render_critical_section (work : Nat → α → WorkOutcome) (data : List α)
    (process_cnt col i : Nat) (sched : List Nat) (s : SysState α)
    (hs : s = parallelRun work data process_cnt col sched)
    (hw : s.workers[i]? = some WStatus.toAcquire)
    (hfree : s.lockHolder = none) :
    (∀ (j1 j2 : Nat) (st1 st2 : WStatus),
      s.workers[j1]? = some st1 → s.workers[j2]? = some st2 →
      st1.inCS = true → st2.inCS = true → j1 = j2) ∧
    ∃ v, s.shared = [v] ∧
      run work data.length col [i, i, i, i, i] s =
        { s with shared := [v + 1],
                 workers := s.workers.set i WStatus.idle,
                 renders := s.renders ++ [⟨v + 1, data.length, col⟩] } := by
  have hInv : Inv work data process_cnt col s := by
    rw [hs]
    exact inv_parallelRun work data process_cnt col sched
  have hilt : i < s.workers.length := by
    rcases Nat.lt_or_ge i s.workers.length with h | h
    · exact h
    · rw [List.getElem?_eq_none h] at hw
      cases hw
  obtain ⟨v, hv⟩ := shared_single_of_free work data process_cnt col s hInv hfree
  refine ⟨?_, v, hv, ?_⟩
  · intro j1 j2 st1 st2 h1 h2 hc1 hc2
    have e1 := hInv.csHolder j1 st1 h1 hc1
    have e2 := hInv.csHolder j2 st2 h2 hc2
    rw [e1] at e2
    exact Option.some.inj e2
  · have hA : workerStep work data.length col i s
        = { s with lockHolder := some i,
                   workers := s.workers.set i WStatus.toGet } := by
      simp [workerStep, hw, hfree]
    have hgB : (s.workers.set i WStatus.toGet)[i]? = some WStatus.toGet :=
      List.getElem?_set_self hilt
    have hB : workerStep work data.length col i
        { s with lockHolder := some i, workers := s.workers.set i WStatus.toGet }
        = { s with lockHolder := some i, shared := [],
                   workers := s.workers.set i (WStatus.toWrite (v + 1)) } := by
      simp [workerStep, hgB, hv, List.set_set]
    have hgC : (s.workers.set i (WStatus.toWrite (v + 1)))[i]?
        = some (WStatus.toWrite (v + 1)) := List.getElem?_set_self hilt
    have hC : workerStep work data.length col i
        { s with lockHolder := some i, shared := [],
                 workers := s.workers.set i (WStatus.toWrite (v + 1)) }
        = { s with lockHolder := some i, shared := [],
                   workers := s.workers.set i (WStatus.toPut (v + 1)),
                   renders := s.renders ++ [⟨v + 1, data.length, col⟩] } := by
      simp [workerStep, hgC, List.set_set]
    have hgD : (s.workers.set i (WStatus.toPut (v + 1)))[i]?
        = some (WStatus.toPut (v + 1)) := List.getElem?_set_self hilt
    have hD : workerStep work data.length col i
        { s with lockHolder := some i, shared := [],
                 workers := s.workers.set i (WStatus.toPut (v + 1)),
                 renders := s.renders ++ [⟨v + 1, data.length, col⟩] }
        = { s with lockHolder := some i, shared := [v + 1],
                   workers := s.workers.set i WStatus.toRelease,
                   renders := s.renders ++ [⟨v + 1, data.length, col⟩] } := by
      simp [workerStep, hgD, List.set_set]
    have hgE : (s.workers.set i WStatus.toRelease)[i]?
        = some WStatus.toRelease := List.getElem?_set_self hilt
    have hE : workerStep work data.length col i
        { s with lockHolder := some i, shared := [v + 1],
                 workers := s.workers.set i WStatus.toRelease,
                 renders := s.renders ++ [⟨v + 1, data.length, col⟩] }
        = { s with lockHolder := none, shared := [v + 1],
                   workers := s.workers.set i WStatus.idle,
                   renders := s.renders ++ [⟨v + 1, data.length, col⟩] } := by
      simp [workerStep, hgE, List.set_set]
    simp only [run, List.foldl_cons, List.foldl_nil]
    rw [hA, hB, hC, hD, hE, ← hfree]

/-- Witness for C5: after one dequeue step of a one-item run, the single
worker is about to acquire; running its five critical-section transitions
leaves the counter queue at `[1]`. -/
theorem render_critical_section_witness :
    (run (fun _ _ => WorkOutcome.ok) 1 10 [0, 0, 0, 0, 0]
      (parallelRun (fun _ _ => WorkOutcome.ok) [(3 : Nat)] 1 10 [0])).shared
      = [1] := by
  obtain ⟨hmx, v, hv, hrun⟩ := render_critical_section
    (fun _ _ => WorkOutcome.ok) [(3 : Nat)] 1 10 0 [0]
    (parallelRun (fun _ _ => WorkOutcome.ok) [(3 : Nat)] 1 10 [0])
    rfl (by decide) (by decide)
  have hx : (parallelRun (fun _ _ => WorkOutcome.ok) [(3 : Nat)] 1 10 [0]).shared
      = [0] := by decide
  rw [hx] at hv
  injection hv with h1 h2
  subst h1
  show (run (fun _ _ => WorkOutcome.ok) [(3 : Nat)].length 10 [0, 0, 0, 0, 0]
      (parallelRun (fun _ _ => WorkOutcome.ok) [(3 : Nat)] 1 10 [0])).shared = [1]
  rw [hrun]

/-- C10: whenever the lock is not held in a reachable state, the counter
queue `shared` holds exactly one value; and a worker at `shared.get()` holds
the lock, and its three transitions get-increment-render-put remove that
single value and put back exactly the old value plus one before the lock is
released. -/
theorem counter_cell_single_value (work : Nat → α → WorkOutcome) (data : List α)
    (process_cnt col : Nat) (sched : List Nat) (s : SysState α)
    (hs : s = parallelRun work data process_cnt col sched) :
    (s.lockHolder = none → ∃ v, s.shared = [v]) ∧
    (∀ i, s.workers[i]? = some WStatus.toGet →
      s.lockHolder = some i ∧
      ∃ v, s.shared = [v] ∧
        run work data.length col [i, i, i] s =
          { s with shared := [v + 1],
                   workers := s.workers.set i WStatus.toRelease,
                   renders := s.renders ++ [⟨v + 1, data.length, col⟩] }) := by
  have hInv : Inv work data process_cnt col s := by
    rw [hs]
    exact inv_parallelRun work data process_cnt col sched
  constructor
  · intro hfree
    exact shared_single_of_free work data process_cnt col s hInv hfree
  · intro i hw
    have hilt : i < s.workers.length := by
      rcases Nat.lt_or_ge i s.workers.length with h | h
      · exact h
      · rw [List.getElem?_eq_none h] at hw
        cases hw
    have hlockEq : s.lockHolder = some i :=
      hInv.csHolder i WStatus.toGet hw (by simp [WStatus.inCS])
    have hhv : s.workers.countP WStatus.holdsVal = 0 := by
      apply List.countP_eq_zero.2
      intro a ha hv
      obtain ⟨j, hj⟩ := mem_getElem_opt s.workers a ha
      have hcs : a.inCS = true := by
        cases a <;> simp [WStatus.holdsVal, WStatus.inCS] at hv ⊢
      have hl := hInv.csHolder j a hj hcs
      rw [hlockEq] at hl
      obtain rfl : i = j := Option.some.inj hl
      rw [hw] at hj
      obtain rfl : WStatus.toGet = a := Option.some.inj hj
      simp [WStatus.holdsVal] at hv
    obtain ⟨v, hv⟩ : ∃ v, s.shared = [v] := by
      have hone := hInv.sharedOne
      exact List.length_eq_one.1 (by omega)
    refine ⟨hlockEq, v, hv, ?_⟩
    have hB : workerStep work data.length col i s
        = { s with shared := [],
                   workers := s.workers.set i (WStatus.toWrite (v + 1)) } := by
      simp [workerStep, hw, hv]
    have hgC : (s.workers.set i (WStatus.toWrite (v + 1)))[i]?
        = some (WStatus.toWrite (v + 1)) := List.getElem?_set_self hilt
    have hC : workerStep work data.length col i
        { s with shared := [],
                 workers := s.workers.set i (WStatus.toWrite (v + 1)) }
        = { s with shared := [],
                   workers := s.workers.set i (WStatus.toPut (v + 1)),
                   renders := s.renders ++ [⟨v + 1, data.length, col⟩] } := by
      simp [workerStep, hgC, List.set_set]
    have hgD : (s.workers.set i (WStatus.toPut (v + 1)))[i]?
        = some (WStatus.toPut (v + 1)) := List.getElem?_set_self hilt
    have hD : workerStep work data.length col i
        { s with shared := [],
                 workers := s.workers.set i (WStatus.toPut (v + 1)),
                 renders := s.renders ++ [⟨v + 1, data.length, col⟩] }
        = { s with shared := [v + 1],
                   workers := s.workers.set i WStatus.toRelease,
                   renders := s.renders ++ [⟨v + 1, data.length, col⟩] } := by
      simp [workerStep, hgD, List.set_set]
    simp only [run, List.foldl_cons, List.foldl_nil]
    rw [hB, hC, hD]

/-- Witness for C10: after two steps of a one-item run the single worker is at
`shared.get()`; it holds the lock, and its three counter transitions leave the
queue at `[1]`. -/
theorem counter_cell_single_value_witness :
    (parallelRun (fun _ _ => WorkOutcome.ok) [(4 : Nat)] 1 10 [0, 0]).lockHolder
      = some 0 ∧
    (run (fun _ _ => WorkOutcome.ok) 1 10 [0, 0, 0]
      (parallelRun (fun _ _ => WorkOutcome.ok) [(4 : Nat)] 1 10 [0, 0])).shared
      = [1] := by
  obtain ⟨hfree, hcs⟩ := counter_cell_single_value
    (fun _ _ => WorkOutcome.ok) [(4 : Nat)] 1 10 [0, 0]
    (parallelRun (fun _ _ => WorkOutcome.ok) [(4 : Nat)] 1 10 [0, 0]) rfl
  obtain ⟨hlock, v, hv, hrun⟩ := hcs 0 (by decide)
  have hx : (parallelRun (fun _ _ => WorkOutcome.ok) [(4 : Nat)] 1 10 [0, 0]).shared
      = [0] := by decide
  rw [hx] at hv
  injection hv with h1 h2
  subst h1
  refine ⟨hlock, ?_⟩
  show (run (fun _ _ => WorkOutcome.ok) [(4 : Nat)].length 10 [0, 0, 0]
      (parallelRun (fun _ _ => WorkOutcome.ok) [(4 : Nat)] 1 10 [0, 0])).shared = [1]
  rw [hrun]

/-- A worker transition never changes the number of spawned workers. -/
theorem workerStep_workers_length (work : Nat → α → WorkOutcome)
    (length col i : Nat) (s : SysState α) :
    (workerStep work length col i s).workers.length = s.workers.length := by
  cases hw : s.workers[i]? with
  | none => simp [workerStep, hw]
  | some st =>
    cases st with
    | idle =>
      cases hsrc : s.src with
      | nil => simp [workerStep, hw, hsrc]
      | cons x rest =>
        cases hout : work i x <;> simp [workerStep, hw, hsrc, hout]
    | toAcquire =>
      cases hlock : s.lockHolder <;> simp [workerStep, hw, hlock]
    | toGet =>
      cases hshared : s.shared <;> simp [workerStep, hw, hshared]
    | toWrite c => simp [workerStep, hw]
    | toPut c => simp [workerStep, hw]
    | toRelease => simp [workerStep, hw]
    | done => simp [workerStep, hw]
    | failed => simp [workerStep, hw]

/-- A whole run never changes the number of spawned workers. -/
theorem run_workers_length (work : Nat → α → WorkOutcome) (length col : Nat)
    (sched : List Nat) : ∀ s : SysState α,
    (run work length col sched s).workers.length = s.workers.length := by
  induction sched with
  | nil => intro s; rfl
  | cons a rest ih =>
    intro s
    have hunfold : run work length col (a :: rest) s
        = run work length col rest (workerStep work length col a s) := rfl
    rw [hunfold, ih (workerStep work length col a s),
      workerStep_workers_length]

/-- With a drained source queue and only idle or finished workers, a worker
transition can only turn the scheduled worker `done`; every other component
of the state is untouched. -/
theorem empty_step_fields (work : Nat → α → WorkOutcome) (length col i : Nat)
    (s : SysState α) (hsrc : s.src = [])
    (hIW : ∀ st ∈ s.workers, st = WStatus.idle ∨ st = WStatus.done) :
    (workerStep work length col i s).src = [] ∧
    (workerStep work length col i s).shared = s.shared ∧
    (workerStep work length col i s).lockHolder = s.lockHolder ∧
    (workerStep work length col i s).calls = s.calls ∧
    (workerStep work length col i s).renders = s.renders ∧
    (∀ st ∈ (workerStep work length col i s).workers,
      st = WStatus.idle ∨ st = WStatus.done) := by
  cases hw : s.workers[i]? with
  | none =>
    have hid : workerStep work length col i s = s := by
      simp [workerStep, hw]
    rw [hid]
    exact ⟨hsrc, rfl, rfl, rfl, rfl, hIW⟩
  | some st =>
    rcases hIW st (List.getElem?_mem hw) with rfl | rfl
    · have hset : workerStep work length col i s
          = { s with workers := s.workers.set i WStatus.done } := by
        simp [workerStep, hw, hsrc]
      rw [hset]
      refine ⟨hsrc, rfl, rfl, rfl, rfl, ?_⟩
      intro st1 hst1
      rcases List.mem_or_eq_of_mem_set hst1 with hmem | rfl
      · exact hIW st1 hmem
      · exact Or.inr rfl
    · have hid : workerStep work length col i s = s := by
        simp [workerStep, hw]
      rw [hid]
      exact ⟨hsrc, rfl, rfl, rfl, rfl, hIW⟩

/-- On an empty input the whole run leaves the counter queue, lock, call
trace and render trace exactly as the dispatcher set them up. -/
theorem empty_run_fields (work : Nat → α → WorkOutcome) (length col : Nat)
    (sched : List Nat) (s : SysState α) (hsrc : s.src = [])
    (hIW : ∀ st ∈ s.workers, st = WStatus.idle ∨ st = WStatus.done) :
    (run work length col sched s).src = [] ∧
    (run work length col sched s).shared = s.shared ∧
    (run work length col sched s).lockHolder = s.lockHolder ∧
    (run work length col sched s).calls = s.calls ∧
    (run work length col sched s).renders = s.renders ∧
    (∀ st ∈ (run work length col sched s).workers,
      st = WStatus.idle ∨ st = WStatus.done) := by
  induction sched generalizing s with
  | nil => exact ⟨hsrc, rfl, rfl, rfl, rfl, hIW⟩
  | cons i rest ih =>
    obtain ⟨h1, h2, h3, h4, h5, h6⟩ :=
      empty_step_fields work length col i s hsrc hIW
    obtain ⟨g1, g2, g3, g4, g5, g6⟩ :=
      ih (workerStep work length col i s) h1 h6
    have hunfold : run work length col (i :: rest) s
        = run work length col rest (workerStep work length col i s) := rfl
    rw [hunfold]
    exact ⟨g1, by rw [g2, h2], by rw [g3, h3], by rw [g4, h4],
      by rw [g5, h5], g6⟩

/-- Running the schedule `0, 1, ..., m - 1` on a drained queue finishes every
worker with index below `m` and touches no other worker slot. -/
theorem empty_completion (work : Nat → α → WorkOutcome) (length col : Nat) :
    ∀ (m : Nat) (s : SysState α), s.src = [] →
    (∀ st ∈ s.workers, st = WStatus.idle ∨ st = WStatus.done) →
    ∀ j, j < s.workers.length →
      (run work length col (List.range m) s).workers[j]? =
        if j < m then some WStatus.done else s.workers[j]? := by
  intro m
  induction m with
  | zero =>
    intro s hsrc hIW j hj
    simp [run]
  | succ m ih =>
    intro s hsrc hIW j hj
    have hsplit : run work length col (List.range (m + 1)) s
        = workerStep work length col m (run work length col (List.range m) s) := by
      rw [List.range_succ]
      simp [run, List.foldl_append]
    obtain ⟨t1, t2, t3, t4, t5, t6⟩ :=
      empty_run_fields work length col (List.range m) s hsrc hIW
    have htlen : (run work length col (List.range m) s).workers.length
        = s.workers.length := run_workers_length work length col (List.range m) s
    rw [hsplit]
    set t := run work length col (List.range m) s with ht
    by_cases hm : m < s.workers.length
    · have hmt : m < t.workers.length := by rw [htlen]; exact hm
      obtain ⟨stm, hstm⟩ : ∃ stm, t.workers[m]? = some stm :=
        ⟨_, List.getElem?_eq_getElem hmt⟩
      have hdone_m : t.workers[m]? = some WStatus.done ∨ t.workers[m]? = some WStatus.idle := by
        rcases t6 stm (List.getElem?_mem hstm) with rfl | rfl
        · exact Or.inr hstm
        · exact Or.inl hstm
      have hstep : (workerStep work length col m t).workers[j]? =
          if j = m then some WStatus.done else t.workers[j]? := by
        rcases hdone_m with hm2 | hm2
        · have hid : workerStep work length col m t = t := by
            simp [workerStep, hm2]
          rw [hid]
          by_cases hjm : j = m
          · subst hjm
            rw [if_pos rfl]
            exact hm2
          · rw [if_neg hjm]
        · have hset : workerStep work length col m t
              = { t with workers := t.workers.set m WStatus.done } := by
            simp [workerStep, hm2, t1]
          rw [hset]
          by_cases hjm : j = m
          · subst hjm
            dsimp only
            rw [if_pos rfl, List.getElem?_set_self hmt]
          · dsimp only
            rw [if_neg hjm, List.getElem?_set_ne (fun h => hjm h.symm)]
      rw [hstep]
      have hIH := ih s hsrc hIW j hj
      rw [← ht] at hIH
      by_cases hjm : j = m
      · subst hjm
        rw [if_pos rfl, if_pos (by omega)]
      · rw [if_neg hjm, hIH]
        by_cases hjlt : j < m
        · rw [if_pos hjlt, if_pos (by omega)]
        · rw [if_neg hjlt, if_neg (by omega)]
    · have hmt : t.workers[m]? = none := by
        rw [List.getElem?_eq_none]
        rw [htlen]
        omega
      have hid : workerStep work length col m t = t := by
        simp [workerStep, hmt]
      rw [hid]
      have hIH := ih s hsrc hIW j hj
      rw [← ht] at hIH
      rw [hIH]
      by_cases hjlt : j < m
      · rw [if_pos hjlt, if_pos (by omega)]
      · rw [if_neg hjlt, if_neg (by omega)]

/-- Counterexample to C3: with an empty items list, `parallel` still spawns
`process_cnt` worker processes (the `processes` list on lines 67-68 always
has `process_cnt` entries), so "returns immediately without spawning any
workers" is false: with `process_cnt = 1` one worker is spawned. -/
theorem empty_items_spawn_counterexample :
    (initState ([] : List Nat) 1 10).workers.length = 1 ∧ (1 : Nat) ≠ 0 := by
  decide

/-- C3 (amended): with an empty items list, `parallel` renders exactly one
line — the initial `format_meter(0, 0, ...)` render of the dispatcher — and
spawns `process_cnt` workers, each of which observes the empty queue within
its bounded dequeue wait and exits without invoking the work function or
rendering; no lock is left held, the counter stays at 0, and the schedule
that lets every worker take one step finishes them all, so the run joins and
returns without deadlock (and no division is performed in the core). -/
theorem empty_items_run (work : Nat → α → WorkOutcome) (process_cnt col : Nat)
    (sched : List Nat) :
    (parallelRun work ([] : List α) process_cnt col sched).renders
      = [⟨0, 0, col⟩] ∧
    (parallelRun work ([] : List α) process_cnt col sched).calls = [] ∧
    (parallelRun work ([] : List α) process_cnt col sched).shared = [0] ∧
    (parallelRun work ([] : List α) process_cnt col sched).lockHolder = none ∧
    (initState ([] : List α) process_cnt col).workers.length = process_cnt ∧
    allDone (parallelRun work ([] : List α) process_cnt col
      (List.range process_cnt)) := by
  have hinit_src : (initState ([] : List α) process_cnt col).src = [] := rfl
  have hinit_IW : ∀ st ∈ (initState ([] : List α) process_cnt col).workers,
      st = WStatus.idle ∨ st = WStatus.done := by
    intro st hst
    simp only [initState] at hst
    exact Or.inl (List.eq_of_mem_replicate hst)
  obtain ⟨h1, h2, h3, h4, h5, h6⟩ := empty_run_fields work
    (List.length ([] : List α)) col sched
    (initState ([] : List α) process_cnt col) hinit_src hinit_IW
  refine ⟨by rw [parallelRun, h5]; simp [initState],
    by rw [parallelRun, h4]; simp [initState],
    by rw [parallelRun, h2]; simp [initState],
    by rw [parallelRun, h3]; simp [initState],
    by simp [initState], ?_⟩
  intro st hst
  obtain ⟨j, hj⟩ := mem_getElem_opt _ st hst
  have hjlt : j < (parallelRun work ([] : List α) process_cnt col
      (List.range process_cnt)).workers.length := by
    rcases Nat.lt_or_ge j _ with h | h
    · exact h
    · rw [List.getElem?_eq_none h] at hj
      cases hj
  have hlen : (parallelRun work ([] : List α) process_cnt col
      (List.range process_cnt)).workers.length = process_cnt := by
    rw [parallelRun, run_workers_length]
    simp [initState]
  have hcomp := empty_completion work (List.length ([] : List α)) col
    process_cnt (initState ([] : List α) process_cnt col) hinit_src hinit_IW j
    (by simpa [initState] using (by rw [hlen] at hjlt; exact hjlt))
  rw [if_pos (by rw [hlen] at hjlt; exact hjlt)] at hcomp
  have heq : some st = some WStatus.done := by rw [← hj, parallelRun, hcomp]
  exact Option.some.inj heq

/-- Counterexample to C7: `parallel` performs no validation of
`process_cnt`.  Called with `process_cnt = 0` and one item, every join
trivially succeeds (there are no workers), the run returns normally with the
item still enqueued and the work function never invoked — no setup error
surfaces to the caller. -/
theorem zero_workers_silent_counterexample :
    allDone (parallelRun (fun _ _ => WorkOutcome.ok) [(42 : Nat)] 0 10 [0, 1, 2]) ∧
    (parallelRun (fun _ _ => WorkOutcome.ok) [(42 : Nat)] 0 10 [0, 1, 2]).calls = [] ∧
    (parallelRun (fun _ _ => WorkOutcome.ok) [(42 : Nat)] 0 10 [0, 1, 2]).src = [42] := by
  decide

/-- C7 (amended): `parallel` does not validate `process_cnt`.  With
`process_cnt = 0` (`range(process_cnt)` is empty, so no workers exist) the
whole run is the identity on the dispatcher-built state: it returns normally,
raises nothing, and leaves every item unprocessed. -/
theorem no_process_cnt_validation (work : Nat → α → WorkOutcome)
    (data : List α) (col : Nat) (sched : List Nat) :
    parallelRun work data 0 col sched = initState data 0 col ∧
    allDone (parallelRun work data 0 col sched) := by
  have hid : ∀ (sch : List Nat) (s : SysState α), s.workers = [] →
      run work data.length col sch s = s := by
    intro sch
    induction sch with
    | nil => intro s h; rfl
    | cons i rest ih =>
      intro s h
      have hw : s.workers[i]? = none := by
        rw [h]
        rfl
      have hstep : workerStep work data.length col i s = s := by
        simp [workerStep, hw]
      have hunfold : run work data.length col (i :: rest) s
          = run work data.length col rest (workerStep work data.length col i s) := rfl
      rw [hunfold, hstep]
      exact ih s h
  have hworkers : (initState data 0 col).workers = ([] : List WStatus) := by
    simp [initState]
  have hmain : parallelRun work data 0 col sched = initState data 0 col :=
    hid sched (initState data 0 col) hworkers
  refine ⟨hmain, ?_⟩
  intro st hst
  rw [hmain, hworkers] at hst
  cases hst

/-- Counterexample to C4: the `except Empty:` clause of `_worker` wraps the
work call itself, so a work function that raises `queue.Empty` is silently
caught by the empty-queue handler: the worker ends in the clean `done` state
(not a propagated failure) even though its work call on item 7 raised. -/
theorem work_empty_error_swallowed_counterexample :
    (parallelRun (fun _ _ => WorkOutcome.raiseEmpty) [(7 : Nat)] 1 10 [0]).workers
      = [WStatus.done] ∧
    (parallelRun (fun _ _ => WorkOutcome.raiseEmpty) [(7 : Nat)] 1 10 [0]).calls
      = [(0, 7)] := by
  decide

/-- C4 (amended): when the work function raises while processing an item, the
worker was outside the critical section, so the RenderGate is not held by it
before or after the failing step, and the item is consumed, never requeued.
An error other than `queue.Empty` propagates out of the worker loop (the
worker ends in the `failed` state); an error that is `queue.Empty` is caught
by the loop's empty-queue handler and silently terminates the worker as if
the queue were drained (the `done` state). -/
theorem work_failure_policy (work : Nat → α → WorkOutcome) (data : List α)
    (process_cnt col i : Nat) (sched : List Nat) (s : SysState α) (x : α)
    (rest : List α)
    (hs : s = parallelRun work data process_cnt col sched)
    (hw : s.workers[i]? = some WStatus.idle) (hsrc : s.src = x :: rest) :
    s.lockHolder ≠ some i ∧
    (workerStep work data.length col i s).lockHolder ≠ some i ∧
    (workerStep work data.length col i s).src = rest ∧
    (workerStep work data.length col i s).calls = s.calls ++ [(i, x)] ∧
    (work i x = WorkOutcome.raiseOther →
      (workerStep work data.length col i s).workers[i]? = some WStatus.failed) ∧
    (work i x = WorkOutcome.raiseEmpty →
      (workerStep work data.length col i s).workers[i]? = some WStatus.done) := by
  have hInv : Inv work data process_cnt col s := by
    rw [hs]
    exact inv_parallelRun work data process_cnt col sched
  have hilt : i < s.workers.length := by
    rcases Nat.lt_or_ge i s.workers.length with h | h
    · exact h
    · rw [List.getElem?_eq_none h] at hw
      cases hw
  have hlockNe : s.lockHolder ≠ some i := by
    intro hl
    obtain ⟨st0, hst0, hcs0⟩ := hInv.holderInCS i hl
    rw [hw] at hst0
    obtain rfl : WStatus.idle = st0 := Option.some.inj hst0
    simp [WStatus.inCS] at hcs0
  cases hout : work i x with
  | ok =>
    have hstep : workerStep work data.length col i s
        = { s with src := rest, workers := s.workers.set i WStatus.toAcquire,
                   calls := s.calls ++ [(i, x)] } := by
      simp [workerStep, hw, hsrc, hout]
    rw [hstep]
    refine ⟨hlockNe, hlockNe, rfl, rfl, ?_, ?_⟩
    · intro h
      cases h
    · intro h
      cases h
  | raiseEmpty =>
    have hstep : workerStep work data.length col i s
        = { s with src := rest, workers := s.workers.set i WStatus.done,
                   calls := s.calls ++ [(i, x)] } := by
      simp [workerStep, hw, hsrc, hout]
    rw [hstep]
    refine ⟨hlockNe, hlockNe, rfl, rfl, ?_, ?_⟩
    · intro h
      cases h
    · intro h
      exact List.getElem?_set_self hilt
  | raiseOther =>
    have hstep : workerStep work data.length col i s
        = { s with src := rest, workers := s.workers.set i WStatus.failed,
                   calls := s.calls ++ [(i, x)] } := by
      simp [workerStep, hw, hsrc, hout]
    rw [hstep]
    refine ⟨hlockNe, hlockNe, rfl, rfl, ?_, ?_⟩
    · intro h
      exact List.getElem?_set_self hilt
    · intro h
      cases h

/-- Witness for C4 (amended): in a fresh one-item run whose work function
raises a non-`Empty` error, the failing step consumes the item, leaves the
worker in the propagated-failure state, and holds no lock. -/
theorem work_failure_policy_witness :
    (workerStep (fun _ _ => WorkOutcome.raiseOther) 1 10 0
      (parallelRun (fun _ _ => WorkOutcome.raiseOther) [(7 : Nat)] 1 10 [])).workers[0]?
      = some WStatus.failed ∧
    (workerStep (fun _ _ => WorkOutcome.raiseOther) 1 10 0
      (parallelRun (fun _ _ => WorkOutcome.raiseOther) [(7 : Nat)] 1 10 [])).src = [] ∧
    (workerStep (fun _ _ => WorkOutcome.raiseOther) 1 10 0
      (parallelRun (fun _ _ => WorkOutcome.raiseOther) [(7 : Nat)] 1 10 [])).lockHolder
      ≠ some 0 := by
  obtain ⟨h1, h2, h3, h4, h5, h6⟩ := work_failure_policy
    (fun _ _ => WorkOutcome.raiseOther) [(7 : Nat)] 1 10 0 []
    (parallelRun (fun _ _ => WorkOutcome.raiseOther) [(7 : Nat)] 1 10 []) 7 []
    rfl (by decide) (by decide)
  exact ⟨h5 rfl, h3, h2⟩

/-- The width-independent view of a state: every component except the width
(and total) fields stored inside the render events; of each render only the
count argument is kept. -/
def coreView (s : SysState α) :
    List α × List Nat × Option Nat × List WStatus × List (Nat × α) × List Nat :=
  (s.src, s.shared, s.lockHolder, s.workers, s.calls,
    s.renders.map RenderEvent.count)

/-- A worker transition is insensitive to the column width except for the
width field it stores into the render trace. -/
theorem coreView_step (work : Nat → α → WorkOutcome) (length c1 c2 i : Nat)
    (s t : SysState α) (h : coreView s = coreView t) :
    coreView (workerStep work length c1 i s)
      = coreView (workerStep work length c2 i t) := by
  simp only [coreView, Prod.mk.injEq] at h
  obtain ⟨h1, h2, h3, h4, h5, h6⟩ := h
  have hw2 : t.workers[i]? = s.workers[i]? := by rw [h4]
  cases hw : s.workers[i]? with
  | none =>
    rw [hw] at hw2
    simp [workerStep, hw, hw2, coreView, h1, h2, h3, h4, h5, h6]
  | some st =>
    rw [hw] at hw2
    cases st with
    | idle =>
      have hsrc2 : t.src = s.src := by rw [h1]
      cases hsrc : s.src with
      | nil =>
        rw [hsrc] at hsrc2
        simp [workerStep, hw, hw2, hsrc, hsrc2, coreView, h1, h2, h3, h4, h5, h6]
      | cons x rest =>
        rw [hsrc] at hsrc2
        cases hout : work i x with
        | ok =>
          simp [workerStep, hw, hw2, hsrc, hsrc2, hout, coreView,
            h1, h2, h3, h4, h5, h6]
        | raiseEmpty =>
          simp [workerStep, hw, hw2, hsrc, hsrc2, hout, coreView,
            h1, h2, h3, h4, h5, h6]
        | raiseOther =>
          simp [workerStep, hw, hw2, hsrc, hsrc2, hout, coreView,
            h1, h2, h3, h4, h5, h6]
    | toAcquire =>
      have hlock2 : t.lockHolder = s.lockHolder := by rw [h3]
      cases hlock : s.lockHolder with
      | none =>
        rw [hlock] at hlock2
        simp [workerStep, hw, hw2, hlock, hlock2, coreView,
          h1, h2, h3, h4, h5, h6]
      | some j =>
        rw [hlock] at hlock2
        simp [workerStep, hw, hw2, hlock, hlock2, coreView,
          h1, h2, h3, h4, h5, h6]
    | toGet =>
      have hsh2 : t.shared = s.shared := by rw [h2]
      cases hsh : s.shared with
      | nil =>
        rw [hsh] at hsh2
        simp [workerStep, hw, hw2, hsh, hsh2, coreView, h1, h2, h3, h4, h5, h6]
      | cons c rest =>
        rw [hsh] at hsh2
        simp [workerStep, hw, hw2, hsh, hsh2, coreView, h1, h2, h3, h4, h5, h6]
    | toWrite c =>
      simp [workerStep, hw, hw2, coreView, h1, h2, h3, h4, h5, h6]
    | toPut c =>
      simp [workerStep, hw, hw2, coreView, h1, h2, h3, h4, h5, h6]
    | toRelease =>
      simp [workerStep, hw, hw2, coreView, h1, h2, h3, h4, h5, h6]
    | done =>
      simp [workerStep, hw, hw2, coreView, h1, h2, h3, h4, h5, h6]
    | failed =>
      simp [workerStep, hw, hw2, coreView, h1, h2, h3, h4, h5, h6]

/-- A whole run is insensitive to the column width except for the width
fields of the render trace. -/
theorem coreView_run (work : Nat → α → WorkOutcome) (length c1 c2 : Nat)
    (sched : List Nat) : ∀ s t : SysState α, coreView s = coreView t →
    coreView (run work length c1 sched s)
      = coreView (run work length c2 sched t) := by
  induction sched with
  | nil => intro s t h; exact h
  | cons i rest ih =>
    intro s t h
    have hunfold1 : run work length c1 (i :: rest) s
        = run work length c1 rest (workerStep work length c1 i s) := rfl
    have hunfold2 : run work length c2 (i :: rest) t
        = run work length c2 rest (workerStep work length c2 i t) := rfl
    rw [hunfold1, hunfold2]
    exact ih (workerStep work length c1 i s) (workerStep work length c2 i t)
      (coreView_step work length c1 c2 i s t h)

/-- C8: the column-width computation of `parallel` falls back to the fixed
default width 10 when the screen shape cannot be determined (and halves the
detected width otherwise), and the width value influences nothing but the
width argument recorded in each render: the run with any detected (or
undetectable) width has exactly the same queue, counter, lock, worker, call
and render-count behaviour as the run with the fallback width — width
detection failure is recoverable and never fatal. -/
theorem width_fallback_recoverable (work : Nat → α → WorkOutcome)
    (data : List α) (process_cnt : Nat) (sched : List Nat)
    (screenShape : Option Nat) :
    computeCol none = 10 ∧
    (∀ w, computeCol (some w) = w / 2) ∧
    coreView (parallelRun work data process_cnt (computeCol screenShape) sched)
      = coreView (parallelRun work data process_cnt 10 sched) := by
  refine ⟨rfl, fun w => rfl, ?_⟩
  apply coreView_run
  simp [coreView, initState]

end MultiTqdm
